import Mathlib

/-!
Verification of the wordle guess helper (help_guess.py).

The Python source is embedded shallowly: the mutable GameState becomes a
record threaded through pure functions, Python exceptions become an
explicit error type carried by Except or by a result pair, and the
candidate generator becomes a chain of pure list computations mirroring
the source statements one by one.  Feedback labels are the characters
'0' (absent), '1' (misplaced) and '2' (correct), exactly as in the
source.  Words are lists of characters.
-/

/-- Error taxonomy.  The source raises RuntimeError for the contradiction
and max-turn cases and AssertionError for the green-conflict case; the
specification names them Contradiction and MaxTurnsExceeded.  The
invalidFeedback constructor is part of the specification taxonomy and is
included so that theorems can state that update never produces it. -/
inductive GError where
  | contradiction
  | maxTurnsExceeded
  | invalidFeedback
deriving DecidableEq, Repr

deriving instance DecidableEq for Except

abbrev Word := List Char

/-- GameState.__init__: turn 1, no eliminated letters, five empty green
slots, empty yellow mapping.  The yellow mapping is an insertion-ordered
association list from letters to the list of positions tried, mirroring
a Python dict of sets (membership is all the source uses of the sets,
plus sorted iteration, which the list of positions supports). -/
structure GameState where
  turn : Nat
  elim : List Char
  green : List (Option Char)
  yellow : List (Char × List Nat)
deriving DecidableEq, Repr

def initState : GameState :=
  { turn := 1, elim := [], green := List.replicate 5 none, yellow := [] }

/-- self.elim.add(letter): a set add, kept as an append-if-new list. -/
def elimAdd (elim : List Char) (c : Char) : List Char :=
  if c ∈ elim then elim else elim ++ [c]

/-- self.yellow[letter].add(position), creating the entry if absent. -/
def triedAdd (tried : List Nat) (p : Nat) : List Nat :=
  if p ∈ tried then tried else tried ++ [p]

def yellowAdd (y : List (Char × List Nat)) (c : Char) (p : Nat) :
    List (Char × List Nat) :=
  match y with
  | [] => [(c, [p])]
  | e :: rest =>
    if e.1 = c then (c, triedAdd e.2 p) :: rest else e :: yellowAdd rest c p

/-- del self.yellow[letter], guarded by the membership test in the source. -/
def yellowRemove (y : List (Char × List Nat)) (c : Char) :
    List (Char × List Nat) :=
  y.filter (fun e => decide (e.1 ≠ c))

/-- GameState.increment_turn. -/
def incrementTurn (s : GameState) : Except GError GameState :=
  if s.turn = 6 then .error .maxTurnsExceeded
  else .ok { s with turn := s.turn + 1 }

/-- One iteration of the label loop in GameState.update, at a given
position, for one (letter, label) pair.  A label other than '0', '1',
'2' falls through every branch and changes nothing.  The assert on a
conflicting green letter becomes a contradiction error; when the letters
agree the assert passes and nothing is mutated. -/
def stepLabel (s : GameState) (pos : Nat) (letter lab : Char) :
    Except GError GameState :=
  if lab = '0' then .ok { s with elim := elimAdd s.elim letter }
  else if lab = '1' then .ok { s with yellow := yellowAdd s.yellow letter pos }
  else if lab = '2' then
    match s.green.getD pos none with
    | some g => if letter = g then .ok s else .error .contradiction
    | none =>
      .ok { s with green := s.green.set pos (some letter),
                   yellow := yellowRemove s.yellow letter }
  else .ok s

/-- The label loop of GameState.update, keeping the state reached so far
when an iteration raises: the pair carries the mutated-so-far state and
the error, mirroring the in-place mutation the source performs before
the failing assert. -/
def labelsRun (s : GameState) (pos : Nat) :
    List (Char × Char) → GameState × Option GError
  | [] => (s, none)
  | (letter, lab) :: rest =>
    match stepLabel s pos letter lab with
    | .ok s' => labelsRun s' (pos + 1) rest
    | .error e => (s, some e)

/-- GameState.update(guess, labels, increment_turn): the turn check runs
before any label is processed; zip truncates to the shorter of guess and
labels as in Python. -/
def updateRun (s : GameState) (guess labels : List Char) (inc : Bool) :
    GameState × Option GError :=
  if inc then
    if s.turn = 6 then (s, some .maxTurnsExceeded)
    else labelsRun { s with turn := s.turn + 1 } 0 (guess.zip labels)
  else labelsRun s 0 (guess.zip labels)

/-- GameState.update as a fallible operation: the caller sees either the
final state or the exception. -/
def update (s : GameState) (guess labels : List Char) (inc : Bool) :
    Except GError GameState :=
  match updateRun s guess labels inc with
  | (s', none) => .ok s'
  | (_, some e) => .error e

/-- A sequence of update calls, stopping at the first failure. -/
def applyUpdates (s : GameState) :
    List (List Char × List Char × Bool) → Except GError GameState
  | [] => .ok s
  | (g, l, i) :: rest =>
    match update s g l i with
    | .ok s' => applyUpdates s' rest
    | .error e => .error e

/-! ## Candidate generator (generate_guesses) -/

def asciiLowercase : List Char :=
  ['a','b','c','d','e','f','g','h','i','j','k','l','m',
   'n','o','p','q','r','s','t','u','v','w','x','y','z']

/-- green_pos: indices where game_state.green is set. -/
def greenPositions (green : List (Option Char)) : List Nat :=
  (List.range 5).filter (fun i => (green.getD i none).isSome)

/-- set(range(5)).difference(tried).difference(green_pos), kept in
ascending order, which is how the source consumes it via sorted(). -/
def openPositions (green : List (Option Char)) (tried : List Nat) :
    List Nat :=
  (List.range 5).filter
    (fun p => decide (p ∉ tried ∧ p ∉ greenPositions green))

/-- The loop that fills ylet_to_open and raises at the first letter with
no open position left. -/
def computeOpens (green : List (Option Char)) :
    List (Char × List Nat) → Except GError (List (Char × List Nat))
  | [] => .ok []
  | (l, tried) :: rest =>
    let op := openPositions green tried
    if op.isEmpty then .error .contradiction
    else
      match computeOpens green rest with
      | .ok r => .ok ((l, op) :: r)
      | .error e => .error e

/-- The loop over list(ylet_to_open.keys()) that moves letters with a
single open position into green_found (overwriting an earlier inferred
letter at the same position, as the source does), deletes them from the
mapping, and raises when the single position is already green. -/
def resolveSingles (green : List (Option Char)) :
    List (Char × List Nat) → List (Option Char) →
      Except GError (List (Option Char) × List (Char × List Nat))
  | [], gf => .ok (gf, [])
  | (l, op) :: rest, gf =>
    if op.length = 1 then
      let p := op.headD 0
      if (green.getD p none).isSome then .error .contradiction
      else resolveSingles green rest (gf.set p (some l))
    else
      match resolveSingles green rest gf with
      | .ok (gf', rest') => .ok (gf', (l, op) :: rest')
      | .error e => .error e

/-- sorted(ylet_to_open.keys()): an ascending insertion sort on the
remaining yellow letters. -/
def insertChar (c : Char) : List Char → List Char
  | [] => [c]
  | b :: bs => if c ≤ b then c :: b :: bs else b :: insertChar c bs

def sortChars : List Char → List Char
  | [] => []
  | c :: cs => insertChar c (sortChars cs)

/-- itertools.product over the per-letter open-position lists. -/
def crossProd : List (List Nat) → List (List Nat)
  | [] => [[]]
  | l :: ls => l.flatMap (fun x => (crossProd ls).map (fun xs => x :: xs))

/-- Writing the chosen yellow positions over the green template. -/
def placeLetters (gt : List (Option Char)) (letters : List Char)
    (poss : List Nat) : List (Option Char) :=
  (letters.zip poss).foldl (fun t lp => t.set lp.2 (some lp.1)) gt

/-- A template is a five-slot pattern: a literal letter or a wildcard.
Steps 1 to 5 of generate_guesses produce the template list and the
green_found record; a wildcard slot stands for the placeholder letter
that the source later replaces with a character class. -/
def templatesE (green : List (Option Char)) (yellow : List (Char × List Nat)) :
    Except GError (List (List (Option Char)) × List (Option Char)) :=
  match computeOpens green yellow with
  | .error e => .error e
  | .ok opens =>
    match resolveSingles green opens (List.replicate 5 none) with
    | .error e => .error e
    | .ok (gf, remaining) =>
      let gt := (List.range 5).map (fun p =>
        match gf.getD p none with
        | some c => some c
        | none => green.getD p none)
      if remaining.isEmpty then .ok ([gt], gf)
      else
        let ks := sortChars (remaining.map (fun e => e.1))
        let openlists := ks.map (fun c => (List.lookup c remaining).getD [])
        let poslists :=
          (crossProd openlists).filter (fun x => decide x.Nodup)
        .ok (poslists.map (fun pl => placeLetters gt ks pl), gf)

/-- get_tried_yellows_for_position: the letters whose tried set holds the
position. -/
def triedAtPos (yellow : List (Char × List Nat)) (pos : Nat) : List Char :=
  (yellow.filter (fun e => decide (pos ∈ e.2))).map (fun e => e.1)

/-- Membership in the character class built for a wildcard slot:
set(ascii_lowercase) minus eliminated letters minus the letters tried at
this position. -/
def allowedAt (elim : List Char) (yellow : List (Char × List Nat))
    (pos : Nat) (c : Char) : Bool :=
  decide (c ∈ asciiLowercase ∧ c ∉ elim ∧ c ∉ triedAtPos yellow pos)

/-- re.match of a compiled template against a word: the five pattern
slots are checked against the first five characters (re.match anchors at
the start only, and the pattern consumes exactly five characters). -/
def matchT (elim : List Char) (yellow : List (Char × List Nat))
    (t : List (Option Char)) (w : Word) : Bool :=
  (List.range 5).all (fun pos =>
    match t.getD pos none with
    | some c => decide (w.getD pos ' ' = c)
    | none => allowedAt elim yellow pos (w.getD pos ' '))

/-- The final loop of generate_guesses: each word is appended once when
any pattern matches it, the inner loop breaking at the first match. -/
def collectGuesses (elim : List Char) (yellow : List (Char × List Nat))
    (ts : List (List (Option Char))) : List Word → List Word
  | [] => []
  | w :: ws =>
    if ts.any (fun t => matchT elim yellow t w) then
      w :: collectGuesses elim yellow ts ws
    else collectGuesses elim yellow ts ws

/-- generate_guesses(game_state), with the module-level word list passed
explicitly: returns the matching words in dictionary order together with
green_found. -/
def generate (s : GameState) (words : List Word) :
    Except GError (List Word × List (Option Char)) :=
  match templatesE s.green s.yellow with
  | .error e => .error e
  | .ok (ts, gf) => .ok (collectGuesses s.elim s.yellow ts words, gf)

/-! ## Ranking (generate_ranked_guesses, word-freq branch) -/

/-- sorted(scored_guesses, key=lambda x:x[1], reverse=True): CPython
sorted is stable, so the embedding is the stable descending insertion
sort, which places an element after exactly the elements whose score is
strictly larger and before equal-scored elements that came later. -/
def insertDesc (a : Word × ℚ) : List (Word × ℚ) → List (Word × ℚ)
  | [] => [a]
  | b :: bs => if b.2 ≤ a.2 then a :: b :: bs else b :: insertDesc a bs

def sortDesc : List (Word × ℚ) → List (Word × ℚ)
  | [] => []
  | a :: as => insertDesc a (sortDesc as)

/-- The word-freq branch of generate_ranked_guesses: score each guess by
the frequency table and sort by descending score.  The table is the
function view of the dict the orchestrator builds with a 0 default. -/
def rankWordFreq (guesses : List Word) (fd : Word → ℚ) : List (Word × ℚ) :=
  sortDesc (guesses.map (fun w => (w, fd w)))

/-! ## Hypothetical label construction (next-guess-freq branch) -/

/-- The label construction at the top of the next-guess-freq branch:
labels starts as five copies of '0', and the loop body for a resolved
position evaluates the comparison labels[pos] == '2' and discards the
result, exactly as the source statement does, so the list is never
written to. -/
def nextGuessLabels (green gf : List (Option Char)) : List Char :=
  (List.range 5).foldl
    (fun ls pos =>
      if (green.getD pos none).isSome ∨ (gf.getD pos none).isSome then
        let _ := decide (ls.getD pos ' ' = '2')
        ls
      else ls)
    (List.replicate 5 '0')

/-- Modelled from the claim wording: every already-resolved position
labeled correct and every other position labeled absent.  Used only to
state how the source construction diverges from it. -/
def claimedHypLabels (green gf : List (Option Char)) : List Char :=
  (List.range 5).map (fun pos =>
    if (green.getD pos none).isSome ∨ (gf.getD pos none).isSome then '2'
    else '0')

/-! ## Heap model for clone independence (GameState.copy)

The frame claim about copy is about aliasing of the mutable containers,
so the embedding makes the Python object store explicit: a heap holds
the GameState objects and, in separate cells, their eliminated sets,
green arrays and yellow mappings; each object addresses its three
containers.  deepcopy allocates a fresh object together with fresh
container cells holding equal contents; update reads the state through
the addresses, runs the label loop, and writes the results back through
the same addresses. -/

structure GSObj where
  turn : Nat
  elimA : Nat
  greenA : Nat
  yellowA : Nat
deriving DecidableEq, Repr

instance : Inhabited GSObj := ⟨⟨0, 0, 0, 0⟩⟩

structure Heap where
  objs : List GSObj
  elims : List (List Char)
  greens : List (List (Option Char))
  yellows : List (List (Char × List Nat))
deriving DecidableEq, Repr

/-- The value of the state stored at address i. -/
def readState (h : Heap) (i : Nat) : GameState :=
  let o := h.objs.getD i default
  { turn := o.turn,
    elim := h.elims.getD o.elimA [],
    green := h.greens.getD o.greenA [],
    yellow := h.yellows.getD o.yellowA [] }

/-- Writing a state value back through the addresses of object i. -/
def writeState (h : Heap) (i : Nat) (s : GameState) : Heap :=
  let o := h.objs.getD i default
  { objs := h.objs.set i { o with turn := s.turn },
    elims := h.elims.set o.elimA s.elim,
    greens := h.greens.set o.greenA s.green,
    yellows := h.yellows.set o.yellowA s.yellow }

/-- GameState.copy, i.e. deepcopy(self): a fresh object whose container
cells are fresh and hold copies of the originals.  Returns the new heap
and the address of the copy. -/
def copyState (h : Heap) (i : Nat) : Heap × Nat :=
  let o := h.objs.getD i default
  ({ objs := h.objs ++
       [{ turn := o.turn, elimA := h.elims.length,
          greenA := h.greens.length, yellowA := h.yellows.length }],
     elims := h.elims ++ [h.elims.getD o.elimA []],
     greens := h.greens ++ [h.greens.getD o.greenA []],
     yellows := h.yellows ++ [h.yellows.getD o.yellowA []] },
   h.objs.length)

/-- GameState.update on the heap: the writes land at the addresses of
object i, and on failure the partially mutated state is written back,
as in-place mutation does. -/
def updateHeap (h : Heap) (i : Nat) (guess labels : List Char)
    (inc : Bool) : Heap :=
  writeState h i (updateRun (readState h i) guess labels inc).1

/-- A sequence of update calls against the object at address i. -/
def applyUpdatesHeap (h : Heap) (i : Nat) :
    List (List Char × List Char × Bool) → Heap
  | [] => h
  | (g, l, inc) :: rest => applyUpdatesHeap (updateHeap h i g l inc) i rest

/-- Modelled from the claim wording: ascending lexical comparison of
words, used only to state the claimed tie-break. -/
def wordLt : Word → Word → Bool
  | [], [] => false
  | [], _ :: _ => true
  | _ :: _, [] => false
  | a :: as, b :: bs =>
    if a < b then true else if a = b then wordLt as bs else false

/-- Modelled from the claim wording: strictly descending score with ties
broken by ascending lexical order of the word. -/
def claimedWordFreqOrder (l : List (Word × ℚ)) : Prop :=
  l.Pairwise (fun x y => x.2 > y.2 ∨ (x.2 = y.2 ∧ wordLt x.1 y.1 = true))

/-! ## General list helpers -/

theorem getD_set_ne (l : List α) {i j : Nat} (x d : α) (h : i ≠ j) :
    (l.set i x).getD j d = l.getD j d := by
  simp [List.getD_eq_getElem?_getD, List.getElem?_set_ne h]

theorem getD_set_self (l : List α) {i : Nat} (x d : α) (h : i < l.length) :
    (l.set i x).getD i d = x := by
  simp [List.getD_eq_getElem?_getD, List.getElem?_set_self h]

theorem getD_append_lt (l l' : List α) {i : Nat} (d : α) (h : i < l.length) :
    (l ++ l').getD i d = l.getD i d := by
  simp [List.getD_eq_getElem?_getD, List.getElem?_append, h]

theorem getD_append_len (l : List α) (x d : α) :
    (l ++ [x]).getD l.length d = x := by
  simp [List.getD_eq_getElem?_getD, List.getElem?_concat_length]

/-! ## Stability of fixed letters (GameState.update, label 2) -/

theorem stepLabel_green_stable {s : GameState} {pos : Nat} {letter lab : Char}
    {s' : GameState} {p : Nat} {c : Char}
    (hp : s.green.getD p none = some c)
    (h : stepLabel s pos letter lab = .ok s') :
    s'.green.getD p none = some c := by
  unfold stepLabel at h
  split_ifs at h with h0 h1 h2
  · cases h; exact hp
  · cases h; exact hp
  · split at h
    next g hg =>
      split_ifs at h with hl
      cases h; exact hp
    next hg =>
      cases h
      show (s.green.set pos (some letter)).getD p none = some c
      rcases eq_or_ne pos p with hpp | hpp
      · rw [hpp] at hg; rw [hg] at hp; cases hp
      · rw [getD_set_ne _ _ _ hpp]; exact hp
  · cases h; exact hp

theorem labelsRun_green_stable {p : Nat} {c : Char} :
    ∀ (pairs : List (Char × Char)) (s : GameState) (pos : Nat),
      s.green.getD p none = some c →
      (labelsRun s pos pairs).1.green.getD p none = some c := by
  intro pairs
  induction pairs with
  | nil => intro s pos hp; exact hp
  | cons e rest ih =>
    intro s pos hp
    obtain ⟨letter, lab⟩ := e
    show (match stepLabel s pos letter lab with
      | .ok s' => labelsRun s' (pos + 1) rest
      | .error e => (s, some e)).1.green.getD p none = some c
    cases hst : stepLabel s pos letter lab with
    | ok s' => exact ih s' (pos + 1) (stepLabel_green_stable hp hst)
    | error e => exact hp

theorem updateRun_green_stable {s : GameState} {g l : List Char} {inc : Bool}
    {p : Nat} {c : Char} (hp : s.green.getD p none = some c) :
    (updateRun s g l inc).1.green.getD p none = some c := by
  unfold updateRun
  cases inc with
  | false => exact labelsRun_green_stable _ _ _ hp
  | true =>
    by_cases ht : s.turn = 6
    · simp only [ht, if_pos, if_true]; exact hp
    · simp only [if_neg ht, if_true]; exact labelsRun_green_stable _ _ _ hp

theorem update_green_stable {s : GameState} {g l : List Char} {inc : Bool}
    {s' : GameState} {p : Nat} {c : Char}
    (hp : s.green.getD p none = some c) (h : update s g l inc = .ok s') :
    s'.green.getD p none = some c := by
  unfold update at h
  cases hur : updateRun s g l inc with
  | mk s2 oe =>
    rw [hur] at h
    cases oe with
    | none =>
      cases h
      have := @updateRun_green_stable s g l inc p c hp
      rw [hur] at this; exact this
    | some e => cases h

theorem applyUpdates_green_stable {p : Nat} {c : Char} :
    ∀ (us : List (List Char × List Char × Bool)) (s s' : GameState),
      s.green.getD p none = some c → applyUpdates s us = .ok s' →
      s'.green.getD p none = some c := by
  intro us
  induction us with
  | nil => intro s s' hp h; cases h; exact hp
  | cons u rest ih =>
    intro s s' hp h
    obtain ⟨g, l, i⟩ := u
    unfold applyUpdates at h
    cases hu : update s g l i with
    | ok s1 =>
      rw [hu] at h
      exact ih s1 s' (update_green_stable hp hu) h
    | error e => rw [hu] at h; cases h

theorem stepLabel_green_conflict {s : GameState} {pos : Nat} {c letter : Char}
    (hp : s.green.getD pos none = some c) (hne : letter ≠ c) :
    stepLabel s pos letter '2' = .error .contradiction := by
  unfold stepLabel
  rw [if_neg (by decide), if_neg (by decide), if_pos rfl, hp]
  exact if_neg hne

theorem stepLabel_green_reconfirm {s : GameState} {pos : Nat} {c : Char}
    (hp : s.green.getD pos none = some c) :
    stepLabel s pos c '2' = .ok s := by
  unfold stepLabel
  rw [if_neg (by decide), if_neg (by decide), if_pos rfl, hp]
  exact if_pos rfl

/-- C4: once fixed[p] holds a letter it never changes to a different
letter under any sequence of update calls; a correct label at p with a
different letter fails with Contradiction, and re-confirmation with the
same letter is a no-op. -/
theorem green_fixed_stable (s : GameState) (p : Nat) (c : Char)
    (hp : s.green.getD p none = some c) :
    (∀ us s', applyUpdates s us = .ok s' → s'.green.getD p none = some c)
    ∧ (∀ letter, letter ≠ c →
        stepLabel s p letter '2' = .error .contradiction)
    ∧ stepLabel s p c '2' = .ok s :=
  ⟨fun us s' h => applyUpdates_green_stable us s s' hp h,
   fun _ hne => stepLabel_green_conflict hp hne,
   stepLabel_green_reconfirm hp⟩

theorem green_fixed_stable_witness :
    (⟨2, ['a'], [some 'b', none, none, none, none], []⟩ :
        GameState).green.getD 0 none = some 'b'
    ∧ stepLabel ⟨1, [], [some 'b', none, none, none, none], []⟩ 0 'a' '2' =
        .error .contradiction
    ∧ stepLabel ⟨1, [], [some 'b', none, none, none, none], []⟩ 0 'b' '2' =
        .ok ⟨1, [], [some 'b', none, none, none, none], []⟩ := by
  have h := green_fixed_stable ⟨1, [], [some 'b', none, none, none, none], []⟩
    0 'b' (by decide)
  exact ⟨h.1 [(['a','a','a','a','a'], ['0','0','0','0','0'], true)]
      ⟨2, ['a'], [some 'b', none, none, none, none], []⟩ (by decide),
    h.2.1 'a' (by decide), h.2.2⟩

/-! ## Fixed letters versus the yellow mapping (claim on update) -/

/-- C7 counterexample: a single successful update that labels a letter
correct at position 0 and then misplaced at position 1 leaves that fixed
letter as a key of the yellow mapping. -/
theorem green_in_yellow_counterexample :
    update initState ['c','c','a','a','a'] ['2','1','0','0','0'] true =
      .ok ⟨2, ['a'], [some 'c', none, none, none, none], [('c', [1])]⟩
    ∧ (⟨2, ['a'], [some 'c', none, none, none, none], [('c', [1])]⟩ :
        GameState).green.getD 0 none = some 'c'
    ∧ ('c', [1]) ∈ (⟨2, ['a'], [some 'c', none, none, none, none],
        [('c', [1])]⟩ : GameState).yellow := by
  exact ⟨by decide, by decide, by decide⟩

/-- C7 amended: the update step that sets an unset fixed position removes
the letter from the yellow mapping at that moment; a later misplaced
label can re-add it, and re-confirmation does not remove it, so the
removal is per-step, not an invariant of successful updates. -/
theorem correct_label_clears_yellow (s : GameState) (pos : Nat)
    (letter : Char) (h : s.green.getD pos none = none) :
    stepLabel s pos letter '2' =
      .ok { s with green := s.green.set pos (some letter),
                   yellow := yellowRemove s.yellow letter }
    ∧ ∀ tried, (letter, tried) ∉ yellowRemove s.yellow letter := by
  constructor
  · unfold stepLabel
    rw [if_neg (by decide), if_neg (by decide), if_pos rfl, h]
  · intro tried hmem
    have hf := (List.mem_filter.mp hmem).2
    simp at hf

theorem correct_label_clears_yellow_witness :
    stepLabel ⟨1, [], List.replicate 5 none, [('c', [0])]⟩ 2 'c' '2' =
      .ok { (⟨1, [], List.replicate 5 none, [('c', [0])]⟩ : GameState) with
              green := (List.replicate 5 none).set 2 (some 'c'),
              yellow := yellowRemove [('c', [0])] 'c' }
    ∧ ('c', [0]) ∉ yellowRemove [('c', [0])] 'c' := by
  have h := correct_label_clears_yellow
    ⟨1, [], List.replicate 5 none, [('c', [0])]⟩ 2 'c' (by decide)
  exact ⟨h.1, h.2 [0]⟩

/-! ## update performs no feedback validation -/

theorem stepLabel_error_cases {s : GameState} {pos : Nat}
    {letter lab : Char} {e : GError}
    (h : stepLabel s pos letter lab = .error e) : e = .contradiction := by
  unfold stepLabel at h
  split_ifs at h
  split at h
  next g hg =>
    split_ifs at h
    cases h; rfl
  next hg => exact Except.noConfusion h

theorem labelsRun_error_cases :
    ∀ (pairs : List (Char × Char)) (s : GameState) (pos : Nat) (e : GError),
      (labelsRun s pos pairs).2 = some e → e = .contradiction := by
  intro pairs
  induction pairs with
  | nil => intro s pos e h; cases h
  | cons pr rest ih =>
    intro s pos e h
    obtain ⟨letter, lab⟩ := pr
    have hm : labelsRun s pos ((letter, lab) :: rest) =
        match stepLabel s pos letter lab with
        | .ok s' => labelsRun s' (pos + 1) rest
        | .error e => (s, some e) := rfl
    rw [hm] at h
    cases hst : stepLabel s pos letter lab with
    | ok s' => rw [hst] at h; exact ih s' (pos + 1) e h
    | error e' =>
      rw [hst] at h
      cases h
      exact stepLabel_error_cases hst

theorem updateRun_not_invalid (s : GameState) (g l : List Char)
    (inc : Bool) : (updateRun s g l inc).2 ≠ some .invalidFeedback := by
  intro h
  unfold updateRun at h
  cases inc with
  | false =>
    simp only [Bool.false_eq_true, if_false] at h
    exact GError.noConfusion (labelsRun_error_cases _ _ _ _ h)
  | true =>
    simp only [if_true] at h
    by_cases ht : s.turn = 6
    · rw [if_pos ht] at h; cases h
    · rw [if_neg ht] at h
      exact GError.noConfusion (labelsRun_error_cases _ _ _ _ h)

/-- C8 counterexample: an update whose label sequence has length 3 and
symbols outside the feedback alphabet succeeds without touching the
state, instead of failing with InvalidFeedback. -/
theorem update_accepts_invalid_labels :
    update initState ['a','b','c','d','e'] ['9','9','9'] false =
      .ok initState
    ∧ (['9','9','9'] : List Char).length ≠ 5 := by
  exact ⟨by decide, by decide⟩

/-- C8 amended: update performs no feedback validation at all: it never
fails with InvalidFeedback, a label outside the alphabet is silently
ignored by the label loop, and a length mismatch is truncated by zip;
the length and symbol checks live in the interactive loop, outside
update. -/
theorem update_never_invalid_feedback :
    (∀ (s : GameState) (g l : List Char) (inc : Bool),
        update s g l inc ≠ .error .invalidFeedback)
    ∧ (∀ (s : GameState) (pos : Nat) (letter lab : Char),
        lab ≠ '0' → lab ≠ '1' → lab ≠ '2' →
        stepLabel s pos letter lab = .ok s) := by
  constructor
  · intro s g l inc h
    unfold update at h
    cases hur : updateRun s g l inc with
    | mk s2 oe =>
      rw [hur] at h
      cases oe with
      | none => exact Except.noConfusion h
      | some e =>
        cases h
        exact updateRun_not_invalid s g l inc (by rw [hur])
  · intro s pos letter lab h0 h1 h2
    unfold stepLabel
    rw [if_neg h0, if_neg h1, if_neg h2]

theorem update_never_invalid_feedback_witness :
    update initState ['a'] ['9'] false ≠ .error .invalidFeedback
    ∧ stepLabel initState 0 'a' 'x' = .ok initState :=
  ⟨update_never_invalid_feedback.1 initState ['a'] ['9'] false,
   update_never_invalid_feedback.2 initState 0 'a' 'x'
     (by decide) (by decide) (by decide)⟩

/-! ## Non-atomicity of update on failure -/

/-- C10: the turn-bound check runs before any label processing, so a
MaxTurnsExceeded failure leaves the state unchanged; otherwise the
labels are processed position by position, and a correct-label conflict
at position p aborts with the effects of the earlier positions kept. -/
theorem update_not_atomic :
    (∀ (s : GameState) (g l : List Char), s.turn = 6 →
        updateRun s g l true = (s, some .maxTurnsExceeded))
    ∧ (∀ (s : GameState) (g l : List Char), s.turn ≠ 6 →
        updateRun s g l true =
          labelsRun { s with turn := s.turn + 1 } 0 (g.zip l))
    ∧ (∀ (s₀ : GameState) (pos : Nat) (pre : List (Char × Char))
        (letter : Char) (rest : List (Char × Char)) (s₁ : GameState)
        (gl : Char),
        labelsRun s₀ pos pre = (s₁, none) →
        s₁.green.getD (pos + pre.length) none = some gl → letter ≠ gl →
        labelsRun s₀ pos (pre ++ (letter, '2') :: rest) =
          (s₁, some .contradiction)) := by
  refine ⟨?_, ?_, ?_⟩
  · intro s g l ht; simp [updateRun, ht]
  · intro s g l ht; simp [updateRun, ht]
  · intro s₀ pos pre
    induction pre generalizing s₀ pos with
    | nil =>
      intro letter rest s₁ gl h hgl hne
      injection h with ha hb
      subst ha
      simp only [List.length_nil, Nat.add_zero] at hgl
      show (match stepLabel s₀ pos letter '2' with
        | .ok s' => labelsRun s' (pos + 1) rest
        | .error e => (s₀, some e)) = (s₀, some .contradiction)
      rw [stepLabel_green_conflict hgl hne]
    | cons pr pre' ih =>
      intro letter rest s₁ gl h hgl hne
      obtain ⟨c₀, l₀⟩ := pr
      have hm : labelsRun s₀ pos ((c₀, l₀) :: pre') =
          match stepLabel s₀ pos c₀ l₀ with
          | .ok s' => labelsRun s' (pos + 1) pre'
          | .error e => (s₀, some e) := rfl
      rw [hm] at h
      show (match stepLabel s₀ pos c₀ l₀ with
        | .ok s' => labelsRun s' (pos + 1) (pre' ++ (letter, '2') :: rest)
        | .error e => (s₀, some e)) = (s₁, some .contradiction)
      cases hst : stepLabel s₀ pos c₀ l₀ with
      | ok s' =>
        rw [hst] at h
        have hlen : pos + ((c₀, l₀) :: pre').length =
            (pos + 1) + pre'.length := by
          simp [List.length_cons]; omega
        rw [hlen] at hgl
        exact ih s' (pos + 1) letter rest s₁ gl h hgl hne
      | error e' =>
        rw [hst] at h
        injection h with ha hb
        exact Option.noConfusion hb

theorem update_not_atomic_witness :
    updateRun ⟨6, [], List.replicate 5 none, []⟩ ['a'] ['0'] true =
      (⟨6, [], List.replicate 5 none, []⟩, some .maxTurnsExceeded)
    ∧ updateRun initState ['a'] ['0'] true =
        labelsRun { initState with turn := 2 } 0 (['a'].zip ['0'])
    ∧ labelsRun ⟨1, [], [none, some 'b', none, none, none], []⟩ 0
        ([('a', '0')] ++ ('c', '2') :: []) =
      (⟨1, ['a'], [none, some 'b', none, none, none], []⟩,
        some .contradiction) := by
  have h := update_not_atomic
  exact ⟨h.1 ⟨6, [], List.replicate 5 none, []⟩ ['a'] ['0'] rfl,
    h.2.1 initState ['a'] ['0'] (by decide),
    h.2.2 ⟨1, [], [none, some 'b', none, none, none], []⟩ 0 [('a', '0')]
      'c' [] ⟨1, ['a'], [none, some 'b', none, none, none], []⟩ 'b'
      (by decide) (by decide) (by decide)⟩

/-! ## The hypothetical label construction never writes a correct label -/

/-- C2: the next-guess-freq simulation builds its label sequence with a
statement that compares labels[pos] with the correct label instead of
assigning it, so on a state with a resolved position the constructed
sequence is still all-absent and differs from the claimed sequence. -/
theorem nextGuessLabels_comparison_bug :
    nextGuessLabels [some 'c', none, none, none, none]
        (List.replicate 5 none) = ['0','0','0','0','0']
    ∧ claimedHypLabels [some 'c', none, none, none, none]
        (List.replicate 5 none) = ['2','0','0','0','0']
    ∧ nextGuessLabels [some 'c', none, none, none, none]
        (List.replicate 5 none) ≠
      claimedHypLabels [some 'c', none, none, none, none]
        (List.replicate 5 none) := by
  exact ⟨by decide, by decide, by decide⟩

/-! ## Contradiction on a letter with no open position -/

theorem computeOpens_err {green : List (Option Char)} :
    ∀ {yellow : List (Char × List Nat)} {l : Char} {tried : List Nat},
      (l, tried) ∈ yellow → openPositions green tried = [] →
      computeOpens green yellow = .error .contradiction := by
  intro yellow
  induction yellow with
  | nil => intro l tried hm _; cases hm
  | cons e rest ih =>
    intro l tried hm hop
    obtain ⟨l0, t0⟩ := e
    rcases List.mem_cons.mp hm with heq | hm'
    · injection heq with he1 he2
      subst he1; subst he2
      simp [computeOpens, hop]
    · by_cases hie : (openPositions green t0).isEmpty
      · simp [computeOpens, hie]
      · simp [computeOpens, hie, ih hm' hop]

/-- C3: whenever some letter of the yellow mapping has an empty open set
(every position fixed or in that letter's tried set), generate fails
with Contradiction. -/
theorem generate_contradiction_of_empty_open (s : GameState)
    (words : List Word) (l : Char) (tried : List Nat)
    (hm : (l, tried) ∈ s.yellow) (hop : openPositions s.green tried = []) :
    generate s words = .error .contradiction := by
  have ht : templatesE s.green s.yellow = .error .contradiction := by
    unfold templatesE
    rw [computeOpens_err hm hop]
  unfold generate
  rw [ht]

theorem generate_contradiction_witness :
    (('c', [0, 1, 2, 3, 4]) ∈
      (⟨1, [], List.replicate 5 none, [('c', [0, 1, 2, 3, 4])]⟩ :
        GameState).yellow)
    ∧ generate ⟨1, [], List.replicate 5 none, [('c', [0, 1, 2, 3, 4])]⟩
        [['a','b','a','c','k']] = .error .contradiction := by
  refine ⟨by decide, ?_⟩
  exact generate_contradiction_of_empty_open _ _ 'c' [0, 1, 2, 3, 4]
    (by decide) (by decide)

/-! ## The candidate list is the template-filtered dictionary -/

theorem collectGuesses_eq_filter (elim : List Char)
    (yellow : List (Char × List Nat)) (ts : List (List (Option Char))) :
    ∀ ws : List Word, collectGuesses elim yellow ts ws =
      ws.filter (fun w => ts.any (fun t => matchT elim yellow t w)) := by
  intro ws
  induction ws with
  | nil => rfl
  | cons w ws ih =>
    show (if ts.any (fun t => matchT elim yellow t w) then
        w :: collectGuesses elim yellow ts ws
      else collectGuesses elim yellow ts ws) = _
    rw [List.filter_cons]
    by_cases hw : ts.any (fun t => matchT elim yellow t w)
    · rw [if_pos hw, if_pos hw, ih]
    · rw [if_neg hw, if_neg hw, ih]

/-- C1: for every state and dictionary on which generate succeeds, a
word is in the output iff it is a dictionary word matched by at least
one of the constructed templates; the output preserves dictionary order
(it is a sublist), and no word is repeated when the dictionary has no
repeats, even when several templates match it. -/
theorem generate_candidates_spec (s : GameState) (words : List Word)
    (ts : List (List (Option Char))) (gf gf' : List (Option Char))
    (gs : List Word)
    (hT : templatesE s.green s.yellow = .ok (ts, gf))
    (hG : generate s words = .ok (gs, gf')) :
    (∀ w, w ∈ gs ↔
        w ∈ words ∧ ∃ t ∈ ts, matchT s.elim s.yellow t w = true)
    ∧ gs.Sublist words ∧ (words.Nodup → gs.Nodup) ∧ gf' = gf := by
  have hgen : generate s words =
      .ok (collectGuesses s.elim s.yellow ts words, gf) := by
    unfold generate; rw [hT]
  rw [hgen] at hG
  injection hG with hpair
  injection hpair with ha hb
  subst ha; subst hb
  rw [collectGuesses_eq_filter]
  refine ⟨?_, List.filter_sublist _, fun hnd => hnd.filter _, rfl⟩
  intro w
  rw [List.mem_filter]
  constructor
  · rintro ⟨hw, hany⟩
    exact ⟨hw, List.any_eq_true.mp hany⟩
  · rintro ⟨hw, hex⟩
    exact ⟨hw, List.any_eq_true.mpr hex⟩

theorem generate_candidates_spec_witness :
    (([['c','x','c','x','x'], ['x','x','c','x','x']] : List Word).Sublist
      [['c','x','c','x','x'], ['x','x','c','x','x']])
    ∧ ((['c','x','c','x','x'] : Word) ∈
        ([['c','x','c','x','x'], ['x','x','c','x','x']] : List Word) ↔
      (['c','x','c','x','x'] : Word) ∈
        ([['c','x','c','x','x'], ['x','x','c','x','x']] : List Word)
      ∧ ∃ t ∈ [[none, none, some 'c', none, none]],
          matchT ['b'] [] t ['c','x','c','x','x'] = true) := by
  have h := generate_candidates_spec
    ⟨1, ['b'], [none, none, some 'c', none, none], []⟩
    [['c','x','c','x','x'], ['x','x','c','x','x']]
    [[none, none, some 'c', none, none]] (List.replicate 5 none)
    (List.replicate 5 none) [['c','x','c','x','x'], ['x','x','c','x','x']]
    (by decide) (by decide)
  exact ⟨h.2.1, h.1 ['c','x','c','x','x']⟩

/-! ## The word-freq ranking: stable descending sort -/

theorem insertDesc_perm (a : Word × ℚ) :
    ∀ l : List (Word × ℚ), (insertDesc a l).Perm (a :: l) := by
  intro l
  induction l with
  | nil => exact List.Perm.refl _
  | cons b bs ih =>
    show (if b.2 ≤ a.2 then a :: b :: bs else b :: insertDesc a bs).Perm _
    by_cases hb : b.2 ≤ a.2
    · rw [if_pos hb]
    · rw [if_neg hb]
      exact (List.Perm.cons b ih).trans (List.Perm.swap a b bs)

theorem sortDesc_perm : ∀ l : List (Word × ℚ), (sortDesc l).Perm l := by
  intro l
  induction l with
  | nil => exact List.Perm.refl _
  | cons a as ih =>
    exact (insertDesc_perm a (sortDesc as)).trans (List.Perm.cons a ih)

theorem insertDesc_sorted {a : Word × ℚ} :
    ∀ {l : List (Word × ℚ)}, l.Pairwise (fun x y => y.2 ≤ x.2) →
      (insertDesc a l).Pairwise (fun x y => y.2 ≤ x.2) := by
  intro l
  induction l with
  | nil =>
    intro _
    exact List.pairwise_cons.mpr ⟨fun y hy => absurd hy (List.not_mem_nil y),
      List.Pairwise.nil⟩
  | cons b bs ih =>
    intro hl
    obtain ⟨hb, hbs⟩ := List.pairwise_cons.mp hl
    show (if b.2 ≤ a.2 then a :: b :: bs else b :: insertDesc a bs).Pairwise _
    by_cases hba : b.2 ≤ a.2
    · rw [if_pos hba]
      refine List.pairwise_cons.mpr ⟨?_, hl⟩
      intro y hy
      rcases List.mem_cons.mp hy with rfl | hy'
      · exact hba
      · exact le_trans (hb y hy') hba
    · rw [if_neg hba]
      refine List.pairwise_cons.mpr ⟨?_, ih hbs⟩
      intro y hy
      rcases List.mem_cons.mp ((insertDesc_perm a bs).mem_iff.mp hy)
        with rfl | hy'
      · exact le_of_not_le hba
      · exact hb y hy'

theorem sortDesc_sorted :
    ∀ l : List (Word × ℚ), (sortDesc l).Pairwise (fun x y => y.2 ≤ x.2) := by
  intro l
  induction l with
  | nil => exact List.Pairwise.nil
  | cons a as ih => exact insertDesc_sorted ih

theorem insertDesc_filter (a : Word × ℚ) (q : ℚ) :
    ∀ l : List (Word × ℚ),
      (insertDesc a l).filter (fun x => decide (x.2 = q)) =
        if a.2 = q then a :: l.filter (fun x => decide (x.2 = q))
        else l.filter (fun x => decide (x.2 = q)) := by
  intro l
  induction l with
  | nil =>
    show List.filter _ [a] = _
    by_cases ha : a.2 = q
    · simp [List.filter_cons, ha]
    · simp [List.filter_cons, ha]
  | cons b bs ih =>
    show List.filter _
      (if b.2 ≤ a.2 then a :: b :: bs else b :: insertDesc a bs) = _
    by_cases hba : b.2 ≤ a.2
    · rw [if_pos hba]
      by_cases ha : a.2 = q
      · simp [List.filter_cons, ha]
      · simp [List.filter_cons, ha]
    · rw [if_neg hba]
      by_cases ha : a.2 = q
      · have hbq : ¬ b.2 = q := fun hbq => hba (by rw [hbq, ha])
        simp [List.filter_cons, ha, hbq, ih]
      · by_cases hbq : b.2 = q
        · simp [List.filter_cons, ha, hbq, ih]
        · simp [List.filter_cons, ha, hbq, ih]

theorem sortDesc_filter (q : ℚ) :
    ∀ l : List (Word × ℚ),
      (sortDesc l).filter (fun x => decide (x.2 = q)) =
        l.filter (fun x => decide (x.2 = q)) := by
  intro l
  induction l with
  | nil => rfl
  | cons a as ih =>
    show (insertDesc a (sortDesc as)).filter _ = _
    rw [insertDesc_filter]
    by_cases ha : a.2 = q
    · rw [if_pos ha, ih]
      simp [List.filter_cons, ha]
    · rw [if_neg ha, ih]
      simp [List.filter_cons, ha]

/-- C5 amended: the word-freq ranking is the stable descending sort of
the scored candidates: scores are non-increasing along the output, the
output is a permutation of the scored input, and the candidates of any
given score keep their candidate-list order (so ties are broken by the
original order, not alphabetically). -/
theorem rankWordFreq_stable_desc (guesses : List Word) (fd : Word → ℚ) :
    (rankWordFreq guesses fd).Pairwise (fun x y => y.2 ≤ x.2)
    ∧ (rankWordFreq guesses fd).Perm (guesses.map (fun w => (w, fd w)))
    ∧ ∀ q, (rankWordFreq guesses fd).filter (fun x => decide (x.2 = q)) =
        (guesses.map (fun w => (w, fd w))).filter
          (fun x => decide (x.2 = q)) :=
  ⟨sortDesc_sorted _, sortDesc_perm _, fun q => sortDesc_filter q _⟩

/-- C5 counterexample: two candidates with equal score keep their
candidate-list order under the ranking, so a z-word listed first stays
ranked before an a-word, violating the claimed alphabetical tie-break. -/
theorem rankWordFreq_tie_counterexample :
    rankWordFreq [['z','z','z','z','z'], ['a','a','a','a','a']]
        (fun _ => 0) =
      [(['z','z','z','z','z'], 0), (['a','a','a','a','a'], 0)]
    ∧ ¬ claimedWordFreqOrder
        (rankWordFreq [['z','z','z','z','z'], ['a','a','a','a','a']]
          (fun _ => 0)) := by
  have heq : rankWordFreq [['z','z','z','z','z'], ['a','a','a','a','a']]
      (fun _ => 0) =
      [(['z','z','z','z','z'], (0 : ℚ)), (['a','a','a','a','a'], 0)] := by
    rfl
  refine ⟨heq, ?_⟩
  intro hord
  rw [heq] at hord
  have hhead := (List.pairwise_cons.mp hord).1 (['a','a','a','a','a'], 0)
    (List.mem_singleton_self _)
  rcases hhead with hgt | ⟨heq2, hlt⟩
  · exact lt_irrefl _ hgt
  · exact absurd hlt (by decide)

/-! ## Candidate count under an all-absent update -/

theorem labelsRun_cons_ok {s s' : GameState} {pos : Nat}
    {letter lab : Char} (h : stepLabel s pos letter lab = .ok s')
    (rest : List (Char × Char)) :
    labelsRun s pos ((letter, lab) :: rest) = labelsRun s' (pos + 1) rest := by
  show (match stepLabel s pos letter lab with
    | .ok s' => labelsRun s' (pos + 1) rest
    | .error e => (s, some e)) = _
  rw [h]

theorem mem_elimAdd {elim : List Char} {c letter : Char} (h : c ∈ elim) :
    c ∈ elimAdd elim letter := by
  unfold elimAdd
  by_cases hm : letter ∈ elim
  · rw [if_pos hm]; exact h
  · rw [if_neg hm]; exact List.mem_append_left _ h

theorem labelsRun_absent :
    ∀ (pairs : List (Char × Char)) (s : GameState) (pos : Nat),
      (∀ x ∈ pairs, x.2 = '0') →
      (labelsRun s pos pairs).1.green = s.green
      ∧ (labelsRun s pos pairs).1.yellow = s.yellow
      ∧ ∀ c ∈ s.elim, c ∈ (labelsRun s pos pairs).1.elim := by
  intro pairs
  induction pairs with
  | nil => intro s pos _; exact ⟨rfl, rfl, fun c hc => hc⟩
  | cons pr rest ih =>
    intro s pos hall
    obtain ⟨letter, lab⟩ := pr
    have hlab : lab = '0' := hall (letter, lab) (List.mem_cons_self _ _)
    subst hlab
    have hstep : stepLabel s pos letter '0' =
        .ok { s with elim := elimAdd s.elim letter } := by
      unfold stepLabel; rw [if_pos rfl]
    rw [labelsRun_cons_ok hstep]
    have hrest : ∀ x ∈ rest, x.2 = '0' :=
      fun x hx => hall x (List.mem_cons_of_mem _ hx)
    obtain ⟨hg, hy, he⟩ :=
      ih { s with elim := elimAdd s.elim letter } (pos + 1) hrest
    exact ⟨hg, hy, fun c hc => he c (mem_elimAdd hc)⟩

theorem updateRun_absent {s : GameState} {g l : List Char} {inc : Bool}
    (hl : ∀ c ∈ l, c = '0') :
    (updateRun s g l inc).1.green = s.green
    ∧ (updateRun s g l inc).1.yellow = s.yellow
    ∧ ∀ c ∈ s.elim, c ∈ (updateRun s g l inc).1.elim := by
  have hall : ∀ x ∈ g.zip l, x.2 = '0' := by
    rintro ⟨x1, x2⟩ hx
    exact hl x2 (List.of_mem_zip hx).2
  unfold updateRun
  cases inc with
  | false =>
    simp only [Bool.false_eq_true, if_false]
    exact labelsRun_absent _ _ _ hall
  | true =>
    simp only [if_true]
    by_cases ht : s.turn = 6
    · rw [if_pos ht]; exact ⟨rfl, rfl, fun c hc => hc⟩
    · rw [if_neg ht]
      exact labelsRun_absent _ { s with turn := s.turn + 1 } 0 hall

theorem update_absent {s s' : GameState} {g l : List Char} {inc : Bool}
    (hl : ∀ c ∈ l, c = '0') (hu : update s g l inc = .ok s') :
    s'.green = s.green ∧ s'.yellow = s.yellow
    ∧ ∀ c ∈ s.elim, c ∈ s'.elim := by
  have hc := @updateRun_absent s g l inc hl
  unfold update at hu
  cases hur : updateRun s g l inc with
  | mk s2 oe =>
    rw [hur] at hu
    cases oe with
    | none => cases hu; rw [hur] at hc; exact hc
    | some e => cases hu

theorem matchT_anti_elim {elim elim' : List Char}
    {yellow : List (Char × List Nat)} {t : List (Option Char)} {w : Word}
    (hsub : ∀ c ∈ elim, c ∈ elim')
    (h : matchT elim' yellow t w = true) : matchT elim yellow t w = true := by
  unfold matchT at h ⊢
  rw [List.all_eq_true] at h ⊢
  intro pos hpos
  have hp := h pos hpos
  cases ht : t.getD pos none with
  | some c => rw [ht] at hp; exact hp
  | none =>
    rw [ht] at hp
    have hp' : allowedAt elim' yellow pos (w.getD pos ' ') = true := hp
    show allowedAt elim yellow pos (w.getD pos ' ') = true
    rw [allowedAt, decide_eq_true_eq] at hp' ⊢
    exact ⟨hp'.1, fun hcm => hp'.2.1 (hsub _ hcm), hp'.2.2⟩

/-- C6 amended: the candidate count never grows across an update whose
labels are all absent; an update containing a correct label can grow the
count, because resolving a yellow letter to green deletes its entry and
with it the tried-position exclusions, as the counterexample shows. -/
theorem generate_shrink_absent (s s' : GameState) (g l : List Char)
    (inc : Bool) (words : List Word) (gs gs' : List Word)
    (gf gf' : List (Option Char))
    (hl : ∀ c ∈ l, c = '0')
    (hu : update s g l inc = .ok s')
    (h1 : generate s words = .ok (gs, gf))
    (h2 : generate s' words = .ok (gs', gf')) :
    gs'.length ≤ gs.length := by
  obtain ⟨hg, hy, he⟩ := update_absent hl hu
  unfold generate at h1 h2
  rw [hg, hy] at h2
  cases hT : templatesE s.green s.yellow with
  | error e => rw [hT] at h1; cases h1
  | ok tg =>
    obtain ⟨ts, gf0⟩ := tg
    rw [hT] at h1 h2
    injection h1 with h1p; injection h1p with h1a h1b
    injection h2 with h2p; injection h2p with h2a h2b
    subst h1a; subst h2a
    rw [collectGuesses_eq_filter, collectGuesses_eq_filter]
    apply List.Sublist.length_le
    apply List.monotone_filter_right
    intro w hw
    rw [List.any_eq_true] at hw ⊢
    obtain ⟨t, htm, hmt⟩ := hw
    exact ⟨t, htm, matchT_anti_elim he hmt⟩

theorem generate_shrink_absent_witness :
    (([['x','x','c','x','x']] : List Word).length ≤
      ([['x','x','c','x','x']] : List Word).length) := by
  exact generate_shrink_absent
    ⟨1, [], List.replicate 5 none, [('c', [0])]⟩
    ⟨2, ['b'], List.replicate 5 none, [('c', [0])]⟩
    ['b','b','b','b','b'] ['0','0','0','0','0'] true
    [['c','x','c','x','x'], ['x','x','c','x','x']]
    [['x','x','c','x','x']] [['x','x','c','x','x']]
    (List.replicate 5 none) (List.replicate 5 none)
    (by decide) (by decide) (by decide) (by decide)

/-- C6 counterexample: a single valid feedback update (all labels in the
alphabet, length five, successful) after which generate returns more
candidates than before: the correct label resolves the yellow letter c,
whose tried-position exclusion at position 0 disappears. -/
theorem generate_shrink_counterexample :
    update ⟨1, [], List.replicate 5 none, [('c', [0])]⟩
        ['b','b','c','b','b'] ['0','0','2','0','0'] true =
      .ok ⟨2, ['b'], [none, none, some 'c', none, none], []⟩
    ∧ generate ⟨1, [], List.replicate 5 none, [('c', [0])]⟩
        [['c','x','c','x','x'], ['x','x','c','x','x']] =
      .ok ([['x','x','c','x','x']], List.replicate 5 none)
    ∧ generate ⟨2, ['b'], [none, none, some 'c', none, none], []⟩
        [['c','x','c','x','x'], ['x','x','c','x','x']] =
      .ok ([['c','x','c','x','x'], ['x','x','c','x','x']],
        List.replicate 5 none)
    ∧ ¬ (([['c','x','c','x','x'], ['x','x','c','x','x']] :
        List Word).length ≤ ([['x','x','c','x','x']] : List Word).length) :=
  ⟨by decide, by decide, by decide, by decide⟩

/-! ## Clone independence (GameState.copy) -/

theorem writeState_frame (h : Heap) (i j : Nat) (st : GameState)
    (hij : j ≠ i)
    (hE : (h.objs.getD j default).elimA ≠ (h.objs.getD i default).elimA)
    (hG : (h.objs.getD j default).greenA ≠ (h.objs.getD i default).greenA)
    (hY : (h.objs.getD j default).yellowA ≠
      (h.objs.getD i default).yellowA) :
    readState (writeState h j st) i = readState h i := by
  simp only [readState, writeState]
  rw [getD_set_ne _ _ _ hij, getD_set_ne _ _ _ hE, getD_set_ne _ _ _ hG,
    getD_set_ne _ _ _ hY]

theorem writeState_obj_other (h : Heap) (i j : Nat) (st : GameState)
    (hij : j ≠ i) :
    (writeState h j st).objs.getD i default = h.objs.getD i default :=
  getD_set_ne _ _ _ hij

theorem writeState_obj_at (h : Heap) (j : Nat) (st : GameState)
    (hjlen : j < h.objs.length) :
    (writeState h j st).objs.getD j default =
      { h.objs.getD j default with turn := st.turn } :=
  getD_set_self _ _ _ hjlen

theorem applyUpdatesHeap_frame (i j : Nat) (oiE oiG oiY jE jG jY : Nat)
    (hij : j ≠ i) (hEne : jE ≠ oiE) (hGne : jG ≠ oiG) (hYne : jY ≠ oiY) :
    ∀ (us : List (List Char × List Char × Bool)) (h : Heap),
      (h.objs.getD i default).elimA = oiE →
      (h.objs.getD i default).greenA = oiG →
      (h.objs.getD i default).yellowA = oiY →
      j < h.objs.length →
      (h.objs.getD j default).elimA = jE →
      (h.objs.getD j default).greenA = jG →
      (h.objs.getD j default).yellowA = jY →
      readState (applyUpdatesHeap h j us) i = readState h i := by
  intro us
  induction us with
  | nil => intro h _ _ _ _ _ _ _; rfl
  | cons u rest ih =>
    intro h hiE hiG hiY hjlen hjE hjG hjY
    obtain ⟨g, l, inc⟩ := u
    show readState (applyUpdatesHeap (updateHeap h j g l inc) j rest) i =
      readState h i
    have hwf : readState (updateHeap h j g l inc) i = readState h i := by
      unfold updateHeap
      apply writeState_frame _ _ _ _ hij
      · rw [hjE, hiE]; exact hEne
      · rw [hjG, hiG]; exact hGne
      · rw [hjY, hiY]; exact hYne
    have hobji : (updateHeap h j g l inc).objs.getD i default =
        h.objs.getD i default :=
      writeState_obj_other _ _ _ _ hij
    have hobjj : (updateHeap h j g l inc).objs.getD j default =
        { h.objs.getD j default with
            turn := (updateRun (readState h j) g l inc).1.turn } :=
      writeState_obj_at _ _ _ hjlen
    have hlen : (updateHeap h j g l inc).objs.length = h.objs.length := by
      unfold updateHeap writeState
      exact List.length_set _ _ _
    rw [ih (updateHeap h j g l inc) (by rw [hobji]; exact hiE)
      (by rw [hobji]; exact hiG) (by rw [hobji]; exact hiY)
      (by rw [hlen]; exact hjlen) (by rw [hobjj]; exact hjE)
      (by rw [hobjj]; exact hjG) (by rw [hobjj]; exact hjY), hwf]

theorem readState_copy (h : Heap) (i : Nat) (hi : i < h.objs.length)
    (hE : (h.objs.getD i default).elimA < h.elims.length)
    (hG : (h.objs.getD i default).greenA < h.greens.length)
    (hY : (h.objs.getD i default).yellowA < h.yellows.length) :
    readState (copyState h i).1 i = readState h i := by
  simp only [readState, copyState]
  rw [getD_append_lt _ _ _ hi, getD_append_lt _ _ _ hE,
    getD_append_lt _ _ _ hG, getD_append_lt _ _ _ hY]

/-- C9: copy is an independent deep clone: whatever sequence of updates
is applied to the clone, reading the original state afterwards gives
back exactly what it held before the copy: turn, eliminated set, fixed
array and yellow mapping are all unchanged.  The hypotheses say that i
is a live object whose container addresses are live cells. -/
theorem copy_frame (h : Heap) (i : Nat)
    (us : List (List Char × List Char × Bool))
    (hi : i < h.objs.length)
    (hE : (h.objs.getD i default).elimA < h.elims.length)
    (hG : (h.objs.getD i default).greenA < h.greens.length)
    (hY : (h.objs.getD i default).yellowA < h.yellows.length) :
    readState (applyUpdatesHeap (copyState h i).1 (copyState h i).2 us) i =
      readState h i := by
  have hobji : (copyState h i).1.objs.getD i default =
      h.objs.getD i default := by
    unfold copyState
    exact getD_append_lt _ _ _ hi
  have hlen : (copyState h i).1.objs.length = h.objs.length + 1 := by
    unfold copyState
    rw [List.length_append, List.length_singleton]
  have hobjj : (copyState h i).1.objs.getD h.objs.length default =
      { turn := (h.objs.getD i default).turn, elimA := h.elims.length,
        greenA := h.greens.length, yellowA := h.yellows.length } := by
    unfold copyState
    exact getD_append_len _ _ _
  have hfr := applyUpdatesHeap_frame i h.objs.length
    (h.objs.getD i default).elimA (h.objs.getD i default).greenA
    (h.objs.getD i default).yellowA
    h.elims.length h.greens.length h.yellows.length
    (Nat.ne_of_gt hi) (Nat.ne_of_gt hE) (Nat.ne_of_gt hG) (Nat.ne_of_gt hY)
    us (copyState h i).1
    (by rw [hobji]) (by rw [hobji]) (by rw [hobji])
    (by rw [hlen]; exact Nat.lt_succ_self _)
    (by rw [hobjj]) (by rw [hobjj]) (by rw [hobjj])
  show readState (applyUpdatesHeap (copyState h i).1 h.objs.length us) i =
    readState h i
  rw [hfr]
  exact readState_copy h i hi hE hG hY

theorem copy_frame_witness :
    readState
      (applyUpdatesHeap
        (copyState ⟨[⟨1, 0, 0, 0⟩], [[]], [List.replicate 5 none], [[]]⟩
          0).1
        (copyState ⟨[⟨1, 0, 0, 0⟩], [[]], [List.replicate 5 none], [[]]⟩
          0).2
        [(['c','c','a','a','a'], ['2','1','0','0','0'], true)]) 0 =
      readState ⟨[⟨1, 0, 0, 0⟩], [[]], [List.replicate 5 none], [[]]⟩ 0 :=
  copy_frame ⟨[⟨1, 0, 0, 0⟩], [[]], [List.replicate 5 none], [[]]⟩ 0
    [(['c','c','a','a','a'], ['2','1','0','0','0'], true)]
    (by decide) (by decide) (by decide) (by decide)
